import Mathlib

/-!
Shallow embedding of the three authenticated data structures of the
repository: the binary Merkle tree (`merkle_tree.rs`), the fixed-depth
sparse Merkle tree (`sparse_merkle_tree.rs`) and the Merkle mountain
range (`merkle_mountain_ranges.rs`).

Byte strings (`Vec<u8>`, `&str` rendered to bytes) are modelled as
`List Nat`.  SHA-256 is modelled as an ideal collision-free hash: the
digest of a byte string is a single positive token carrying an injective
encoding of the input.  Because every digest is exactly one token (a
fixed width, mirroring the fixed 32-byte width of real digests) and the
token is positive (so it can never be confused with the literal zero
bytes of the sparse tree's bottom default node, nor with the empty
string sentinel of the MMR), concatenations of digests are unambiguous
and structural equality of modelled values coincides with equality of
the corresponding byte strings under the collision-free idealization.
-/

/-- Injective encoding of a byte string into one natural number. -/
def encodeL : List Nat → Nat
  | [] => 0
  | b :: rest => Nat.pair b (encodeL rest) + 1

/-- Ideal model of SHA-256: one positive token per digest. -/
def sha (data : List Nat) : List Nat := [encodeL data + 1]

/-! ## Merkle tree (`merkle_tree.rs`) -/

structure MerkleTree where
  root : List Nat
  leaves : List (List Nat)
deriving DecidableEq, Repr

namespace MerkleTree

/-- `MerkleTree::hash_leaf`: `Sha256::digest(leaf.as_bytes())`. -/
def hash_leaf (leaf : List Nat) : List Nat := sha leaf

/-- `MerkleTree::hash_pair`: SHA-256 of the two digests concatenated. -/
def hash_pair (left right : List Nat) : List Nat := sha (left ++ right)

/-- `MerkleTree::hash_level`: `chunks(2)`, a full pair is hashed, a
trailing single element is carried up unchanged. -/
def hash_level : List (List Nat) → List (List Nat)
  | [] => []
  | [single] => [single]
  | left :: right :: rest => hash_pair left right :: hash_level rest

/-- The `while current_level.len() > 1` loop of `find_root`, with
explicit fuel.  `leaves.length` units of fuel always suffice because
`hash_level` at least halves any level of length ≥ 2. -/
def reduceLevels : Nat → List (List Nat) → List (List Nat)
  | 0, level => level
  | fuel + 1, level =>
    if level.length ≤ 1 then level else reduceLevels fuel (hash_level level)

/-- `MerkleTree::find_root`; `none` models the panic of
`current_level.into_iter().next().unwrap()` on an empty level. -/
def find_root (leaves : List (List Nat)) : Option (List Nat) :=
  (reduceLevels leaves.length leaves).head?

/-- `MerkleTree::new`; `none` models the propagated panic. -/
def new (data : List (List Nat)) : Option MerkleTree :=
  let leaves := data.map hash_leaf
  (find_root leaves).map (fun r => { root := r, leaves := leaves })

/-- The level-walking loop of `MerkleTree::generate_proof`, with the
same fuel convention as `find_root`. -/
def genProofLoop : Nat → List (List Nat) → Nat → List (List Nat × Bool)
  | 0, _, _ => []
  | fuel + 1, level, idx =>
    if level.length > 1 then
      (if idx ^^^ 1 < level.length then
        [(level.getD (idx ^^^ 1) [], decide (idx % 2 = 0))]
      else []) ++ genProofLoop fuel (hash_level level) (idx / 2)
    else []

/-- `MerkleTree::generate_proof`. -/
def generate_proof (t : MerkleTree) (leaf_index : Nat) : List (List Nat × Bool) :=
  genProofLoop t.leaves.length t.leaves leaf_index

/-- The recomputation loop of `MerkleTree::verify_proof`. -/
def verifyFold (proof : List (List Nat × Bool)) (leaf : List Nat) : List Nat :=
  proof.foldl
    (fun current e => if e.2 then hash_pair current e.1 else hash_pair e.1 current)
    leaf

/-- `MerkleTree::verify_proof`. -/
def verify_proof (root leaf : List Nat) (proof : List (List Nat × Bool)) : Bool :=
  verifyFold proof leaf == root

end MerkleTree

theorem length_hash_level : (l : List (List Nat)) →
    (MerkleTree.hash_level l).length = (l.length + 1) / 2
  | [] => rfl
  | [_] => by simp [MerkleTree.hash_level]
  | _ :: _ :: rest => by
    simp [MerkleTree.hash_level, length_hash_level rest]
    omega

/-- The reduction described by the specification: repeatedly hash the
current level (pairs hashed, trailing odd element carried unchanged)
until exactly one element remains; undefined on an empty level. -/
def reduceSpec : List (List Nat) → Option (List Nat)
  | [] => none
  | [x] => some x
  | x :: y :: rest => reduceSpec (MerkleTree.hash_level (x :: y :: rest))
termination_by l => l.length
decreasing_by
  rw [length_hash_level]
  simp
  omega

/-! ## Sparse Merkle tree (`sparse_merkle_tree.rs`) -/

/-- `TREE_DEPTH`. -/
def TREE_DEPTH : Nat := 128

structure SparseMerkleTree where
  root : List Nat
  default_nodes : List (List Nat)
deriving DecidableEq, Repr

namespace SparseMerkleTree

/-- `SparseMerkleTree::hash_leaf`. -/
def hash_leaf (leaf : List Nat) : List Nat := sha leaf

/-- `SparseMerkleTree::hash_pair`. -/
def hash_pair (left right : List Nat) : List Nat := sha (left ++ right)

/-- The default-node table read bottom-up: `defaultNodeAux 0` is the
all-zero 32-byte bottom entry `default_nodes[TREE_DEPTH]`, and
`defaultNodeAux (j+1)` hashes two copies of the entry below it, exactly
as the constructor's `default_nodes[i] = hash_pair(d[i+1], d[i+1])`
loop does.  `defaultNodeAux j` is `default_nodes[TREE_DEPTH - j]`. -/
def defaultNodeAux : Nat → List Nat
  | 0 => List.replicate 32 0
  | j + 1 => hash_pair (defaultNodeAux j) (defaultNodeAux j)

/-- The `default_nodes` vector built by `SparseMerkleTree::new`. -/
def defaultNodesTable : List (List Nat) :=
  (List.range (TREE_DEPTH + 1)).map (fun i => defaultNodeAux (TREE_DEPTH - i))

/-- `SparseMerkleTree::new`: the root starts as `default_nodes[0]`. -/
def new : SparseMerkleTree :=
  { root := defaultNodesTable.getD 0 [], default_nodes := defaultNodesTable }

/-- One iteration of the path accumulation shared by `insert`,
`generate_proof` and `verify_proof`:
`path |= (key[i / 8] as u128 & (1 << (i % 8))) << i`, with the shift of
a `u128` truncated modulo `2^128`.  A 16-byte key is modelled as the
function sending a byte index to the byte's value. -/
def pathStep (key : Nat → Nat) (path : Nat) (i : Nat) : Nat :=
  path ||| ((((key (i / 8)) &&& (1 <<< (i % 8))) <<< i) % 2 ^ 128)

/-- The loop counter sequence `for i in (0..TREE_DEPTH).rev()`. -/
def levelList : List Nat := (List.range TREE_DEPTH).reverse

/-- The final value of the `path` accumulator of `insert`'s loop (the
same value is accumulated inside `generate_proof` and `verify_proof`). -/
def pathOf (key : Nat → Nat) : Nat := levelList.foldl (pathStep key) 0

/-- One iteration of `insert`'s loop: update `path`, pick the sibling
(both arms of the source's `if` yield `default_nodes[i + 1]`), and
combine on the side selected by bit `i` of `path`. -/
def insertStep (dn : List (List Nat)) (key : Nat → Nat)
    (st : Nat × List Nat) (i : Nat) : Nat × List Nat :=
  let path := pathStep key st.1 i
  let sibling := dn.getD (i + 1) []
  (path,
    if path &&& (1 <<< i) = 0 then hash_pair st.2 sibling
    else hash_pair sibling st.2)

/-- `SparseMerkleTree::insert`. -/
def insert (t : SparseMerkleTree) (key : Nat → Nat) (value : List Nat) :
    SparseMerkleTree :=
  { t with
    root := (levelList.foldl (insertStep t.default_nodes key) (0, hash_leaf value)).2 }

/-- `SparseMerkleTree::generate_proof`: pushes `default_nodes[i + 1]`
for `i` from 127 down to 0 (the path accumulated alongside is unused). -/
def generate_proof (t : SparseMerkleTree) (key : Nat → Nat) : List (List Nat) :=
  levelList.map (fun i => t.default_nodes.getD (i + 1) [])

/-- One iteration of `verify_proof`'s loop: like `insertStep` but the
sibling is `proof[TREE_DEPTH - 1 - i]`. -/
def verifyStep (proof : List (List Nat)) (key : Nat → Nat)
    (st : Nat × List Nat) (i : Nat) : Nat × List Nat :=
  let path := pathStep key st.1 i
  let sibling := proof.getD (TREE_DEPTH - 1 - i) []
  (path,
    if path &&& (1 <<< i) = 0 then hash_pair st.2 sibling
    else hash_pair sibling st.2)

/-- `SparseMerkleTree::verify_proof`: starts from the hashed value, or
from `default_nodes[TREE_DEPTH]` when no value is supplied. -/
def verify_proof (t : SparseMerkleTree) (key : Nat → Nat)
    (value : Option (List Nat)) (proof : List (List Nat)) : Bool :=
  let start := match value with
    | some v => hash_leaf v
    | none => t.default_nodes.getD TREE_DEPTH []
  (levelList.foldl (verifyStep proof key) (0, start)).2 == t.root

end SparseMerkleTree

/-- A sequence of `insert` calls applied to a fresh tree. -/
def foldInserts (ops : List ((Nat → Nat) × List Nat)) : SparseMerkleTree :=
  ops.foldl (fun t kv => t.insert kv.1 kv.2) SparseMerkleTree.new

/-! ## Merkle mountain range (`merkle_mountain_ranges.rs`) -/

structure MMR where
  peaks : List (List Nat)
  leaves : List (List Nat)
  bag_size : Nat
deriving DecidableEq, Repr

namespace MMR

/-- The free function `hash`: SHA-256 of a string, the 64-character hex
rendering modelled as the digest token. -/
def hash (data : List Nat) : List Nat := sha data

/-- `MMR::new`. -/
def new (bag_size : Nat) : MMR :=
  { peaks := [], leaves := [], bag_size := bag_size }

/-- The carry loop of `MMR::append`: while the slot at the current
height is occupied, merge it (existing peak on the left) and clear it;
the merged hash is written into the first free slot, extending the
array if the end is reached. -/
def carryLoop : List (List Nat) → List Nat → List (List Nat)
  | [], current => [current]
  | p :: rest, current =>
    if p = [] then current :: rest
    else [] :: carryLoop rest (hash (p ++ current))

/-- `for j in 1..bag_size { self.peaks[i + j] = String::new() }`. -/
def clearWindow (bag_size i : Nat) (peaks : List (List Nat)) : List (List Nat) :=
  ((List.range bag_size).drop 1).foldl (fun ps j => ps.set (i + j) []) peaks

/-- The window scan of `MMR::bag_peaks`, with explicit fuel: `i`
increases by one every iteration and `peaks.length` is preserved, so
`peaks.length + 1` units of fuel always cover the
`while i + bag_size <= peaks.len()` loop. -/
def bagLoop (bag_size : Nat) : Nat → List (List Nat) → Nat → List (List Nat)
  | 0, peaks, _ => peaks
  | fuel + 1, peaks, i =>
    if i + bag_size ≤ peaks.length then
      let window := (peaks.drop i).take bag_size
      let peaks' :=
        if window.all (fun p => !p.isEmpty) then
          clearWindow bag_size i (peaks.set i (hash (window.foldl (· ++ ·) [])))
        else peaks
      bagLoop bag_size fuel peaks' (i + 1)
    else peaks

/-- `MMR::bag_peaks`. -/
def bag_peaks (m : MMR) : MMR :=
  { m with peaks := bagLoop m.bag_size (m.peaks.length + 1) m.peaks 0 }

/-- `MMR::append`. -/
def append (m : MMR) (data : List Nat) : MMR :=
  let leaf_hash := hash data
  bag_peaks
    { m with
      leaves := m.leaves ++ [leaf_hash],
      peaks := carryLoop m.peaks leaf_hash }

/-- `MMR::root`: fold the peak array from the highest index down,
skipping empty slots; the first non-empty peak seeds the accumulator
and each further one is combined as `hash(peak || acc)`. -/
def root (m : MMR) : List Nat :=
  m.peaks.reverse.foldl
    (fun current peak =>
      if peak.isEmpty then current
      else if current.isEmpty then peak
      else hash (peak ++ current))
    []

/-- The fold described by the specification's `root()` clause: take the
non-empty peaks from highest index to lowest, seed the accumulator with
the first, combine each further peak `p` as `pair_hash(p, acc)`, and
return the empty sentinel when no non-empty peak exists. -/
def rootSpec (m : MMR) : List Nat :=
  match m.peaks.reverse.filter (fun p => !p.isEmpty) with
  | [] => []
  | p :: rest => rest.foldl (fun acc q => hash (q ++ acc)) p

end MMR

/-! ## Concrete instances used by witnesses and counterexamples -/

/-- The spec's running example `["a", "b", "c", "d"]` as UTF-8 bytes. -/
def dataABCD : List (List Nat) := [[97], [98], [99], [100]]

/-- The tree built from `dataABCD`. -/
def tree4 : MerkleTree :=
  { root := MerkleTree.hash_pair
      (MerkleTree.hash_pair (MerkleTree.hash_leaf [97]) (MerkleTree.hash_leaf [98]))
      (MerkleTree.hash_pair (MerkleTree.hash_leaf [99]) (MerkleTree.hash_leaf [100])),
    leaves := [MerkleTree.hash_leaf [97], MerkleTree.hash_leaf [98],
      MerkleTree.hash_leaf [99], MerkleTree.hash_leaf [100]] }

/-- A 16-byte key whose byte 0 is `0b10` (bit 1 set, all other bits clear). -/
def c6Key : Nat → Nat := fun j => if j = 0 then 2 else 0

/-- The MMR of the repository's `test_bagged_peaks`: `bag_size = 2`,
items `"A"` .. `"H"` appended in order. -/
def mmr8 : MMR :=
  ([[65], [66], [67], [68], [69], [70], [71], [72]] : List (List Nat)).foldl
    MMR.append (MMR.new 2)

/-! ## Merkle tree lemmas -/

theorem reduceLevels_nil : ∀ n, MerkleTree.reduceLevels n [] = []
  | 0 => rfl
  | _ + 1 => by simp [MerkleTree.reduceLevels]

theorem reduceLevels_length_eq_one :
    ∀ (n : Nat) (l : List (List Nat)), l ≠ [] → l.length ≤ n + 1 →
      (MerkleTree.reduceLevels n l).length = 1 := by
  intro n
  induction n with
  | zero =>
    intro l hne hlen
    have : 1 ≤ l.length := List.length_pos.mpr hne
    simp only [MerkleTree.reduceLevels]
    omega
  | succ n ih =>
    intro l hne hlen
    by_cases h : l.length ≤ 1
    · have : 1 ≤ l.length := List.length_pos.mpr hne
      simp only [MerkleTree.reduceLevels, if_pos h]
      omega
    · simp only [MerkleTree.reduceLevels, if_neg h]
      have hll := length_hash_level l
      apply ih
      · intro hc
        rw [hc] at hll
        simp at hll
        omega
      · omega

theorem reduceLevels_head_eq_reduceSpec :
    ∀ (n : Nat) (l : List (List Nat)), l.length ≤ n + 1 →
      (MerkleTree.reduceLevels n l).head? = reduceSpec l := by
  intro n
  induction n with
  | zero =>
    intro l hlen
    match l with
    | [] => simp [MerkleTree.reduceLevels, reduceSpec]
    | [x] => simp [MerkleTree.reduceLevels, reduceSpec]
    | x :: y :: rest => simp at hlen
  | succ n ih =>
    intro l hlen
    match l with
    | [] => simp [reduceLevels_nil, reduceSpec]
    | [x] => simp [MerkleTree.reduceLevels, reduceSpec]
    | x :: y :: rest =>
      have hgt : ¬ (x :: y :: rest).length ≤ 1 := by simp
      rw [MerkleTree.reduceLevels, if_neg hgt]
      rw [ih _ (by rw [length_hash_level]; simp at hlen ⊢; omega)]
      conv_rhs => rw [reduceSpec]

theorem find_root_eq_reduceSpec (l : List (List Nat)) :
    MerkleTree.find_root l = reduceSpec l :=
  reduceLevels_head_eq_reduceSpec l.length l (by omega)

/-- C2: the root produced by construction equals the spec's repeated
level reduction (pairs hashed, trailing odd element carried unchanged,
until one element remains), and on `["a","b","c","d"]` the root is
`pair_hash(pair_hash(H(a),H(b)), pair_hash(H(c),H(d)))`. -/
theorem merkle_root_reduction :
    (∀ items : List (List Nat), items ≠ [] →
        (MerkleTree.new items).map MerkleTree.root
          = reduceSpec (items.map MerkleTree.hash_leaf))
    ∧ (MerkleTree.new dataABCD).map MerkleTree.root
        = some (MerkleTree.hash_pair
            (MerkleTree.hash_pair (MerkleTree.hash_leaf [97]) (MerkleTree.hash_leaf [98]))
            (MerkleTree.hash_pair (MerkleTree.hash_leaf [99]) (MerkleTree.hash_leaf [100]))) := by
  constructor
  · intro items _
    simp only [MerkleTree.new, find_root_eq_reduceSpec]
    cases hx : reduceSpec (items.map MerkleTree.hash_leaf) <;> simp [hx]
  · decide

/-- Witness for `merkle_root_reduction`. -/
theorem merkle_root_reduction_witness :
    ([[97]] : List (List Nat)) ≠ [] ∧
      (MerkleTree.new [[97]]).map MerkleTree.root
        = reduceSpec ([[97]].map MerkleTree.hash_leaf) :=
  ⟨by decide, merkle_root_reduction.1 [[97]] (by decide)⟩

/-- Counterexample to C4 as stated: constructing from the empty item
sequence does not return any error value; `find_root` unwraps `None`
on the empty level, i.e. the construction panics (modelled as `none`).
No `EmptyInputError` exists anywhere in the code. -/
theorem merkle_new_empty_counterexample :
    MerkleTree.new ([] : List (List Nat)) = none := rfl

/-- C4 amended: construction from an empty item sequence panics
(`unwrap` of `None` inside `find_root`, modelled as `none`), and this
panic happens exactly for the empty sequence: every non-empty sequence
constructs successfully. -/
theorem merkle_new_none_iff_empty :
    ∀ items : List (List Nat), MerkleTree.new items = none ↔ items = [] := by
  intro items
  constructor
  · intro h
    by_contra hne
    have h1 : items.map MerkleTree.hash_leaf ≠ [] := by
      simpa using hne
    have h2 := reduceLevels_length_eq_one (items.map MerkleTree.hash_leaf).length
      (items.map MerkleTree.hash_leaf) h1 (by omega)
    simp only [MerkleTree.new, Option.map_eq_none', MerkleTree.find_root,
      List.head?_eq_none_iff] at h
    rw [h] at h2
    simp at h2
  · intro h
    subst h
    rfl


theorem xor_one_of_even {n : Nat} (h : n % 2 = 0) : n ^^^ 1 = n + 1 := by
  apply Nat.eq_of_testBit_eq
  intro i
  cases i with
  | zero =>
    simp only [Nat.testBit_xor, Nat.testBit_zero]
    have h1 : ¬ n % 2 = 1 := by omega
    have h2 : (n + 1) % 2 = 1 := by omega
    simp [h1, h2]
  | succ j =>
    rw [Nat.testBit_xor]
    rw [Nat.testBit_lt_two_pow (x := 1) (Nat.one_lt_two_pow_iff.mpr (by omega))]
    rw [Bool.xor_false]
    rw [Nat.testBit_add_one, Nat.testBit_add_one]
    congr 1
    omega

theorem xor_one_of_odd {n : Nat} (h : n % 2 = 1) : n ^^^ 1 = n - 1 := by
  apply Nat.eq_of_testBit_eq
  intro i
  cases i with
  | zero =>
    simp only [Nat.testBit_xor, Nat.testBit_zero]
    have h2 : ¬ (n - 1) % 2 = 1 := by omega
    simp [h, h2]
    omega
  | succ j =>
    rw [Nat.testBit_xor]
    rw [Nat.testBit_lt_two_pow (x := 1) (Nat.one_lt_two_pow_iff.mpr (by omega))]
    rw [Bool.xor_false]
    rw [Nat.testBit_add_one, Nat.testBit_add_one]
    congr 1
    omega

theorem hash_level_getD : ∀ (level : List (List Nat)) (k : Nat), 2 * k < level.length →
    (MerkleTree.hash_level level).getD k [] =
      if 2 * k + 1 < level.length then
        MerkleTree.hash_pair (level.getD (2 * k) []) (level.getD (2 * k + 1) [])
      else level.getD (2 * k) []
  | [], k, h => by simp at h
  | [x], k, h => by
    have hk : k = 0 := by simp at h; omega
    subst hk
    simp [MerkleTree.hash_level]
  | x :: y :: rest, 0, h => by
    rw [if_pos (by simp)]
    simp [MerkleTree.hash_level]
  | x :: y :: rest, k + 1, h => by
    have h' : 2 * k < rest.length := by simp at h; omega
    have ih := hash_level_getD rest k h'
    have e1 : 2 * (k + 1) = 2 * k + 1 + 1 := by ring
    simp only [MerkleTree.hash_level, List.getD_cons_succ, e1, List.length_cons]
    rw [ih]
    by_cases hc : 2 * k + 1 < rest.length
    · rw [if_pos hc, if_pos (by omega)]
    · rw [if_neg hc, if_neg (by omega)]

theorem verifyFold_append (p q : List (List Nat × Bool)) (leaf : List Nat) :
    MerkleTree.verifyFold (p ++ q) leaf
      = MerkleTree.verifyFold q (MerkleTree.verifyFold p leaf) := by
  simp [MerkleTree.verifyFold, List.foldl_append]

theorem genProofLoop_verifyFold :
    ∀ (n : Nat) (level : List (List Nat)) (idx : Nat),
      idx < level.length → (MerkleTree.reduceLevels n level).length = 1 →
      MerkleTree.verifyFold (MerkleTree.genProofLoop n level idx) (level.getD idx [])
        = (MerkleTree.reduceLevels n level).getD 0 [] := by
  intro n
  induction n with
  | zero =>
    intro level idx hidx hlen
    simp only [MerkleTree.reduceLevels] at hlen ⊢
    have hidx0 : idx = 0 := by omega
    subst hidx0
    simp [MerkleTree.genProofLoop, MerkleTree.verifyFold]
  | succ n ih =>
    intro level idx hidx hlen
    by_cases hl : level.length ≤ 1
    · have hg : ¬ level.length > 1 := by omega
      simp only [MerkleTree.reduceLevels, if_pos hl] at hlen ⊢
      have hidx0 : idx = 0 := by omega
      subst hidx0
      simp [MerkleTree.genProofLoop, if_neg hg, MerkleTree.verifyFold]
    · have hgt : level.length > 1 := by omega
      have hred : MerkleTree.reduceLevels (n + 1) level
          = MerkleTree.reduceLevels n (MerkleTree.hash_level level) := by
        simp [MerkleTree.reduceLevels, hl]
      rw [hred] at hlen
      rw [hred]
      rw [MerkleTree.genProofLoop, if_pos hgt]
      rw [verifyFold_append]
      have hentry : MerkleTree.verifyFold
          (if idx ^^^ 1 < level.length then
            [(level.getD (idx ^^^ 1) [], decide (idx % 2 = 0))]
          else []) (level.getD idx [])
          = (MerkleTree.hash_level level).getD (idx / 2) [] := by
        rcases Nat.mod_two_eq_zero_or_one idx with hpar | hpar
        · rw [xor_one_of_even hpar]
          by_cases hs : idx + 1 < level.length
          · rw [if_pos hs]
            simp only [MerkleTree.verifyFold, List.foldl_cons, List.foldl_nil,
              decide_eq_true_eq, hpar, if_pos]
            rw [hash_level_getD level (idx / 2) (by omega)]
            rw [if_pos (by omega)]
            have e : 2 * (idx / 2) = idx := by omega
            rw [e]
          · rw [if_neg hs]
            simp only [MerkleTree.verifyFold, List.foldl_nil]
            rw [hash_level_getD level (idx / 2) (by omega)]
            rw [if_neg (by omega)]
            have e : 2 * (idx / 2) = idx := by omega
            rw [e]
        · rw [xor_one_of_odd hpar]
          have hs : idx - 1 < level.length := by omega
          rw [if_pos hs]
          have hd : decide (idx % 2 = 0) = false := by simp; omega
          simp only [MerkleTree.verifyFold, List.foldl_cons, List.foldl_nil, hd,
            Bool.false_eq_true, if_neg, ite_false]
          rw [hash_level_getD level (idx / 2) (by omega)]
          rw [if_pos (by omega)]
          have e1 : 2 * (idx / 2) = idx - 1 := by omega
          have e2 : 2 * (idx / 2) + 1 = idx := by omega
          rw [e2, e1]
      rw [hentry]
      apply ih
      · rw [length_hash_level]
        omega
      · exact hlen

/-- C3: for every tree successfully constructed from `items` and every
in-range leaf index, verifying the generated proof against the stored
root and the leaf's hash succeeds. -/
theorem merkle_proof_roundtrip :
    ∀ (items : List (List Nat)) (t : MerkleTree) (i : Nat),
      MerkleTree.new items = some t → i < t.leaves.length →
      MerkleTree.verify_proof t.root (MerkleTree.hash_leaf (items.getD i []))
        (t.generate_proof i) = true := by
  intro items t i hnew hi
  rw [MerkleTree.new] at hnew
  obtain ⟨r, hr, ht⟩ := Option.map_eq_some'.mp hnew
  subst ht
  simp only at hr hi ⊢
  have hLne : items.map MerkleTree.hash_leaf ≠ [] := by
    intro hc
    rw [hc] at hi
    simp at hi
  have hlen1 := reduceLevels_length_eq_one (items.map MerkleTree.hash_leaf).length
    (items.map MerkleTree.hash_leaf) hLne (by omega)
  have hgd : (MerkleTree.reduceLevels (items.map MerkleTree.hash_leaf).length
      (items.map MerkleTree.hash_leaf)).getD 0 [] = r := by
    rw [MerkleTree.find_root] at hr
    cases hred : MerkleTree.reduceLevels (items.map MerkleTree.hash_leaf).length
        (items.map MerkleTree.hash_leaf) with
    | nil => rw [hred] at hlen1; simp at hlen1
    | cons a rest =>
      rw [hred] at hr
      simp at hr
      simp [hr]
  have hleaf : (items.map MerkleTree.hash_leaf).getD i []
      = MerkleTree.hash_leaf (items.getD i []) := by
    have hi' : i < items.length := by simpa using hi
    simp [List.getD_eq_getElem?_getD, List.getElem?_map, List.getElem?_eq_getElem hi']
  have hmain := genProofLoop_verifyFold (items.map MerkleTree.hash_leaf).length
    (items.map MerkleTree.hash_leaf) i (by simpa using hi) hlen1
  rw [hleaf] at hmain
  simp only [MerkleTree.verify_proof, MerkleTree.generate_proof]
  rw [hmain, hgd]
  simp

/-- Witness for `merkle_proof_roundtrip`. -/
theorem merkle_proof_roundtrip_witness :
    MerkleTree.new dataABCD = some tree4 ∧ 1 < tree4.leaves.length ∧
      MerkleTree.verify_proof tree4.root (MerkleTree.hash_leaf (dataABCD.getD 1 []))
        (tree4.generate_proof 1) = true :=
  ⟨by decide, by decide, merkle_proof_roundtrip dataABCD tree4 1 (by decide) (by decide)⟩

theorem genProofLoop_pow :
    ∀ (n k : Nat) (level : List (List Nat)) (idx : Nat),
      level.length = 2 ^ k → 2 ^ k ≤ idx → idx < 2 ^ (k + 1) →
      MerkleTree.genProofLoop n level idx = [] := by
  intro n
  induction n with
  | zero => intros; rfl
  | succ n ih =>
    intro k level idx hlen hlo hhi
    cases k with
    | zero =>
      have hg : ¬ level.length > 1 := by rw [hlen]; omega
      simp [MerkleTree.genProofLoop, if_neg hg]
    | succ j =>
      have hpos : 0 < 2 ^ j := Nat.two_pow_pos j
      have hp : (2 : Nat) ^ (j + 1) = 2 * 2 ^ j := by ring
      have hp2 : (2 : Nat) ^ (j + 2) = 4 * 2 ^ j := by ring
      have hgt : level.length > 1 := by rw [hlen]; omega
      rw [MerkleTree.genProofLoop, if_pos hgt]
      have hsib : ¬ (idx ^^^ 1 < level.length) := by
        rcases Nat.mod_two_eq_zero_or_one idx with hpar | hpar
        · rw [xor_one_of_even hpar]; omega
        · rw [xor_one_of_odd hpar]; rw [hlen]; omega
      rw [if_neg hsib]
      simp only [List.nil_append]
      apply ih j
      · rw [length_hash_level, hlen]; omega
      · omega
      · omega

/-- Counterexample to C5 as stated: `generate_proof(4)` on the 4-leaf
tree does not fail — the code has no bounds check and no
`IndexOutOfRange` value anywhere; it returns an ordinary (here empty)
proof list. -/
theorem merkle_proof_out_of_range_counterexample :
    (MerkleTree.new dataABCD).map (fun t => t.generate_proof 4) = some [] := by
  decide

/-- C5 amended: `generate_proof` never fails on an out-of-range index;
it runs the same level walk and returns a proof list.  In particular,
for a tree with `2^k` leaves, every index in `[2^k, 2^(k+1))` yields
the empty proof. -/
theorem merkle_proof_out_of_range_total :
    ∀ (items : List (List Nat)) (t : MerkleTree) (k idx : Nat),
      MerkleTree.new items = some t → items.length = 2 ^ k →
      2 ^ k ≤ idx → idx < 2 ^ (k + 1) →
      t.generate_proof idx = [] := by
  intro items t k idx hnew hlen hlo hhi
  rw [MerkleTree.new] at hnew
  obtain ⟨r, _, ht⟩ := Option.map_eq_some'.mp hnew
  subst ht
  simp only [MerkleTree.generate_proof]
  apply genProofLoop_pow _ k
  · simp [hlen]
  · exact hlo
  · exact hhi

/-- Witness for `merkle_proof_out_of_range_total`. -/
theorem merkle_proof_out_of_range_total_witness :
    MerkleTree.new dataABCD = some tree4 ∧ dataABCD.length = 2 ^ 2 ∧
      2 ^ 2 ≤ 4 ∧ 4 < 2 ^ (2 + 1) ∧ tree4.generate_proof 4 = [] :=
  ⟨by decide, by decide, by decide, by decide,
    merkle_proof_out_of_range_total dataABCD tree4 2 4 (by decide) (by decide)
      (by decide) (by decide)⟩

/-! ## Sparse Merkle tree lemmas -/

theorem insert_default_nodes (t : SparseMerkleTree) (k : Nat → Nat) (v : List Nat) :
    (t.insert k v).default_nodes = t.default_nodes := rfl

theorem foldl_insert_default_nodes :
    ∀ (ops : List ((Nat → Nat) × List Nat)) (t : SparseMerkleTree),
      (ops.foldl (fun t kv => t.insert kv.1 kv.2) t).default_nodes
        = t.default_nodes := by
  intro ops
  induction ops with
  | nil => intro t; rfl
  | cons kv rest ih =>
    intro t
    rw [List.foldl_cons, ih]
    rfl

theorem foldInserts_default_nodes (ops : List ((Nat → Nat) × List Nat)) :
    (foldInserts ops).default_nodes = SparseMerkleTree.new.default_nodes :=
  foldl_insert_default_nodes ops SparseMerkleTree.new

theorem insert_root_congr {t t' : SparseMerkleTree}
    (h : t.default_nodes = t'.default_nodes) (k : Nat → Nat) (v : List Nat) :
    (t.insert k v).root = (t'.insert k v).root := by
  simp [SparseMerkleTree.insert, h]

/-- C1: the root left by `insert(k, v)` is the same whatever sequence
of inserts preceded it — `insert` reads only the immutable default-node
table, never any previously written branch. -/
theorem smt_insert_root_independent :
    ∀ (ops : List ((Nat → Nat) × List Nat)) (k : Nat → Nat) (v : List Nat),
      ((foldInserts ops).insert k v).root
        = (SparseMerkleTree.new.insert k v).root := by
  intro ops k v
  exact insert_root_congr (foldInserts_default_nodes ops) k v

/-- C6 (bug evaluation): for the key whose byte 0 is `0b10`, the final
`path` accumulator is `4`, i.e. bit 2 is set and bit 1 is clear, while
the claim (and the code's own doc comment) require bit 1 of `path` to
equal bit 1 of byte 0 of the key, which is set.  The source expression
`(key[i / 8] as u128 & (1 << (i % 8))) << i` places the extracted bit
at position `i + i % 8` (truncated mod `2^128`), not at position `i`. -/
theorem smt_path_bit_bug :
    SparseMerkleTree.pathOf c6Key = 4 ∧
      (SparseMerkleTree.pathOf c6Key).testBit 1 = false ∧
      (c6Key 0).testBit 1 = true := by
  set_option maxRecDepth 4000 in decide

/-- The first component of `insert`'s loop state is exactly the path
accumulation fold, so `pathOf` is the path computed inside `insert`. -/
theorem insert_fold_fst (dn : List (List Nat)) (key : Nat → Nat) :
    ∀ (L : List Nat) (st : Nat × List Nat),
      (L.foldl (SparseMerkleTree.insertStep dn key) st).1
        = L.foldl (SparseMerkleTree.pathStep key) st.1 := by
  intro L
  induction L with
  | nil => intro st; rfl
  | cons i rest ih =>
    intro st
    rw [List.foldl_cons, List.foldl_cons, ih]
    rfl

theorem defaultNodesTable_getD {i : Nat} (h : i ≤ 128) :
    SparseMerkleTree.defaultNodesTable.getD i []
      = SparseMerkleTree.defaultNodeAux (128 - i) := by
  simp [SparseMerkleTree.defaultNodesTable, TREE_DEPTH,
    List.getD_eq_getElem?_getD, List.getElem?_range (show i < 129 by omega)]

theorem generate_proof_getD (t : SparseMerkleTree) (key : Nat → Nat)
    {i : Nat} (h : i < 128) :
    (t.generate_proof key).getD (TREE_DEPTH - 1 - i) []
      = t.default_nodes.getD (i + 1) [] := by
  simp only [SparseMerkleTree.generate_proof, SparseMerkleTree.levelList, TREE_DEPTH]
  rw [List.getD_eq_getElem?_getD, List.getElem?_map]
  rw [List.getElem?_reverse (by simp; omega)]
  rw [List.length_range]
  rw [show 128 - 1 - (128 - 1 - i) = i from by omega]
  rw [List.getElem?_range h]
  simp

theorem foldl_congr_mem {α β : Type} (f g : β → α → β) :
    ∀ (l : List α), (∀ b a, a ∈ l → f b a = g b a) →
      ∀ init, l.foldl f init = l.foldl g init := by
  intro l
  induction l with
  | nil => intros; rfl
  | cons a rest ih =>
    intro h init
    rw [List.foldl_cons, List.foldl_cons, h init a (by simp)]
    exact ih (fun b x hx => h b x (by simp [hx])) _

/-- C7: immediately after `insert(k, v)` (on any tree reachable by a
sequence of inserts from `new`), verifying the generated proof for `k`
with value `v` succeeds. -/
theorem smt_insert_then_verify :
    ∀ (ops : List ((Nat → Nat) × List Nat)) (k : Nat → Nat) (v : List Nat),
      ((foldInserts ops).insert k v).verify_proof k (some v)
        (((foldInserts ops).insert k v).generate_proof k) = true := by
  intro ops k v
  simp only [SparseMerkleTree.verify_proof]
  have hsteps : ∀ (st : Nat × List Nat) (i : Nat), i ∈ SparseMerkleTree.levelList →
      SparseMerkleTree.verifyStep
        (((foldInserts ops).insert k v).generate_proof k) k st i
        = SparseMerkleTree.insertStep (foldInserts ops).default_nodes k st i := by
    intro st i hi
    have hi' : i < 128 := by
      simpa [SparseMerkleTree.levelList, TREE_DEPTH, List.mem_reverse,
        List.mem_range] using hi
    simp only [SparseMerkleTree.verifyStep, SparseMerkleTree.insertStep]
    rw [generate_proof_getD _ _ hi']
    rfl
  rw [foldl_congr_mem _ _ SparseMerkleTree.levelList hsteps
    (0, SparseMerkleTree.hash_leaf v)]
  simp [SparseMerkleTree.insert]

theorem verifyFold_defaults (k : Nat → Nat) (proof : List (List Nat))
    (hproof : ∀ i, i < 128 →
      proof.getD (TREE_DEPTH - 1 - i) [] = SparseMerkleTree.defaultNodeAux (127 - i)) :
    ∀ (n : Nat), n ≤ 128 → ∀ (p : Nat),
      (((List.range n).reverse).foldl (SparseMerkleTree.verifyStep proof k)
          (p, SparseMerkleTree.defaultNodeAux (128 - n))).2
        = SparseMerkleTree.defaultNodeAux 128 := by
  intro n
  induction n with
  | zero => intro _ p; simp
  | succ n ih =>
    intro hn p
    rw [List.range_succ, List.reverse_append, List.reverse_singleton,
      List.singleton_append, List.foldl_cons]
    have hstep : SparseMerkleTree.verifyStep proof k
        (p, SparseMerkleTree.defaultNodeAux (128 - (n + 1))) n
        = (SparseMerkleTree.pathStep k p n, SparseMerkleTree.defaultNodeAux (128 - n)) := by
      simp only [SparseMerkleTree.verifyStep]
      rw [hproof n (by omega)]
      rw [show 127 - n = 128 - (n + 1) from by omega]
      rw [show 128 - n = (128 - (n + 1)) + 1 from by omega]
      by_cases hbit : SparseMerkleTree.pathStep k p n &&& (1 <<< n) = 0
      · rw [if_pos hbit]
        rfl
      · rw [if_neg hbit]
        rfl
    rw [hstep]
    exact ih (by omega) _

/-- C10: on a freshly constructed sparse tree, the non-inclusion proof
(`value = None`) of every key verifies: at every level both children
are the same default node, so the left/right order chosen by the path
bit cannot change the recomputed hash, which climbs the default-node
table back to the initial root. -/
theorem smt_fresh_noninclusion :
    ∀ k : Nat → Nat,
      SparseMerkleTree.new.verify_proof k none
        (SparseMerkleTree.new.generate_proof k) = true := by
  intro k
  have hproof : ∀ i, i < 128 →
      (SparseMerkleTree.new.generate_proof k).getD (TREE_DEPTH - 1 - i) []
        = SparseMerkleTree.defaultNodeAux (127 - i) := by
    intro i hi
    rw [generate_proof_getD _ _ hi]
    show SparseMerkleTree.defaultNodesTable.getD (i + 1) [] = _
    rw [defaultNodesTable_getD (by omega)]
    rw [show 128 - (i + 1) = 127 - i from by omega]
  have hfold := verifyFold_defaults k _ hproof 128 (by omega) 0
  simp only [SparseMerkleTree.verify_proof]
  have hstart : SparseMerkleTree.new.default_nodes.getD TREE_DEPTH []
      = SparseMerkleTree.defaultNodeAux (128 - 128) := by
    show SparseMerkleTree.defaultNodesTable.getD 128 [] = _
    rw [defaultNodesTable_getD (by omega)]
  have hroot : SparseMerkleTree.new.root = SparseMerkleTree.defaultNodeAux 128 := by
    show SparseMerkleTree.defaultNodesTable.getD 0 [] = _
    rw [defaultNodesTable_getD (by omega)]
  rw [hroot]
  show ((SparseMerkleTree.levelList.foldl
    (SparseMerkleTree.verifyStep (SparseMerkleTree.new.generate_proof k) k)
    (0, SparseMerkleTree.new.default_nodes.getD TREE_DEPTH [])).2
      == SparseMerkleTree.defaultNodeAux 128) = true
  rw [hstart]
  rw [show SparseMerkleTree.levelList = (List.range 128).reverse from rfl]
  rw [hfold]
  simp

/-! ## Merkle mountain range lemmas -/

theorem mmr_hash_ne_nil (l : List Nat) : MMR.hash l ≠ [] := by
  simp [MMR.hash, sha]

theorem mmr_foldl_root_nonempty :
    ∀ (l : List (List Nat)) (acc : List Nat), acc ≠ [] →
      l.foldl
        (fun current peak =>
          if peak.isEmpty then current
          else if current.isEmpty then peak
          else MMR.hash (peak ++ current)) acc
        = (l.filter (fun p => !p.isEmpty)).foldl
            (fun a q => MMR.hash (q ++ a)) acc := by
  intro l
  induction l with
  | nil => intros; rfl
  | cons p rest ih =>
    intro acc hacc
    have hae : acc.isEmpty = false := by
      cases acc with
      | nil => exact absurd rfl hacc
      | cons a t => rfl
    by_cases hp : p = []
    · subst hp
      rw [List.foldl_cons, List.filter_cons_of_neg (by simp)]
      simp only [List.isEmpty_nil, if_pos rfl]
      exact ih acc hacc
    · have hpe : p.isEmpty = false := by
        cases p with
        | nil => exact absurd rfl hp
        | cons a t => rfl
      rw [List.foldl_cons, List.filter_cons_of_pos (by simp [hpe])]
      rw [List.foldl_cons]
      simp only [hpe, hae, Bool.false_eq_true, if_neg, ite_false]
      exact ih (MMR.hash (p ++ acc)) (mmr_hash_ne_nil _)

/-- C8: `root()` equals the specification's fold of the peak array from
highest index to lowest, skipping empty slots, seeding the accumulator
with the first non-empty peak and combining each further peak `p` as
`pair_hash(p, acc)`; the empty sentinel is returned when no non-empty
peak exists. -/
theorem mmr_root_eq_rootSpec : ∀ m : MMR, m.root = MMR.rootSpec m := by
  intro m
  simp only [MMR.root, MMR.rootSpec]
  generalize m.peaks.reverse = l
  induction l with
  | nil => rfl
  | cons p rest ih =>
    by_cases hp : p = []
    · subst hp
      rw [List.foldl_cons, List.filter_cons_of_neg (by simp)]
      simpa using ih
    · have hpe : p.isEmpty = false := by
        cases p with
        | nil => exact absurd rfl hp
        | cons a t => rfl
      rw [List.foldl_cons, List.filter_cons_of_pos (by simp [hpe])]
      simp only [hpe, List.isEmpty_nil, Bool.false_eq_true, if_neg, ite_false, if_pos]
      exact mmr_foldl_root_nonempty rest p hp

/-- C9: with `bag_size = 2`, after appending `"A"` .. `"H"` exactly one
slot of the peak array is non-empty, and appending `"I"` changes the
value returned by `root()`. -/
theorem mmr_bag2_eight_appends :
    (mmr8.peaks.filter (fun p => !p.isEmpty)).length = 1 ∧
      (MMR.append mmr8 [73]).root ≠ mmr8.root := by
  decide
